import Mathlib

/-!
Shallow embedding of the loss and likelihood utilities of CNPP-SAHP
(utils.py), together with theorems settling the specification claims.

Modelling conventions:
* a tensor of rank n is a nested list of depth n; slicing `x[:, 1:]` is
  `List.tail` applied rowwise, `x[:, :-1]` is `List.dropLast` rowwise, and
  elementwise binary operations are `List.zipWith` (shapes always agree in
  the program, and `zipWith` truncates to the common length exactly as the
  slices produce the common length);
* real-valued tensors are modelled over an arbitrary linear ordered field
  for the purely arithmetic routines (instantiated at the exact rationals
  for concrete evaluation), and over the real numbers for the routines that
  use log / exp;
* the in-place tensor mutations of the source (`event += ...`,
  `masked_fill_`, `squeeze_`, `target[...] = 0`) are modelled by returning,
  next to the result, the final value of the mutated argument tensor;
* integer tensors are nested lists of `Int`; counts are `Nat`.
-/

namespace CNPP

/-! ### List index helper lemmas -/

theorem getD_map {α β : Type} (f : α → β) :
    ∀ (l : List α) (i : ℕ) (d : α) (e : β), i < l.length →
      (l.map f).getD i e = f (l.getD i d) := by
  intro l
  induction l with
  | nil => intro i d e h; exact absurd h (by simp)
  | cons x xs ih =>
      intro i d e h
      cases i with
      | zero => simp [List.getD]
      | succ n =>
          simp only [List.map_cons, List.getD_cons_succ]
          exact ih n d e (by simpa using h)

theorem getD_zipWith {α β γ : Type} (f : α → β → γ) :
    ∀ (as : List α) (bs : List β) (i : ℕ) (da : α) (db : β) (dc : γ),
      i < as.length → i < bs.length →
      (List.zipWith f as bs).getD i dc = f (as.getD i da) (bs.getD i db) := by
  intro as
  induction as with
  | nil => intro bs i da db dc h _; exact absurd h (by simp)
  | cons a as ih =>
      intro bs i da db dc ha hb
      cases bs with
      | nil => exact absurd hb (by simp)
      | cons b bs =>
          cases i with
          | zero => simp [List.getD]
          | succ n =>
              simp only [List.zipWith_cons_cons, List.getD_cons_succ]
              exact ih bs n da db dc (by simpa using ha) (by simpa using hb)

theorem getD_tail {α : Type} (l : List α) (i : ℕ) (d : α) :
    l.tail.getD i d = l.getD (i + 1) d := by
  cases l with
  | nil => simp [List.getD]
  | cons x xs => simp [List.getD_cons_succ]

theorem getD_dropLast {α : Type} :
    ∀ (l : List α) (i : ℕ) (d : α), i + 1 < l.length →
      l.dropLast.getD i d = l.getD i d := by
  intro l
  induction l with
  | nil => intro i d h; exact absurd h (by simp)
  | cons x xs ih =>
      intro i d h
      cases xs with
      | nil => exact absurd h (by simp)
      | cons y ys =>
          cases i with
          | zero => simp [List.getD]
          | succ n =>
              simp only [List.dropLast_cons₂, List.getD_cons_succ]
              exact ih n d (by simpa using h)

/-! ### Generic tensor operations -/

/-- The slice `x[:, 1:]` of a rank-2 tensor. -/
def slice1 {α : Type} (x : List (List α)) : List (List α) :=
  x.map List.tail

/-- The slice `x[:, :-1]` of a rank-2 tensor. -/
def sliceInit {α : Type} (x : List (List α)) : List (List α) :=
  x.map List.dropLast

/-- Elementwise binary operation on rank-2 tensors. -/
def zip2 {α : Type} (f : α → α → α) (x y : List (List α)) : List (List α) :=
  List.zipWith (fun r s => List.zipWith f r s) x y

/-- Scalar multiplication of a rank-2 tensor. -/
def smul2 {α : Type} [Mul α] (c : α) (x : List (List α)) : List (List α) :=
  x.map (List.map (fun v => c * v))

/-- Sum of all entries of a rank-2 tensor (torch.sum). -/
def sum2 {α : Type} [AddMonoid α] (x : List (List α)) : α :=
  (x.map List.sum).sum

section Field

variable {α : Type} [LinearOrderedField α]

/-! ### compute_integral_biased (utils.py lines 27-35) -/

/-- Embedding of compute_integral_biased: trapezoidal approximation of the
compensator integral.  Follows the source line by line:
diff_time = (time[:, 1:] - time[:, :-1]) * non_pad_mask[:, 1:],
diff_lambda = (all_lambda[:, 1:] + all_lambda[:, :-1]) * non_pad_mask[:, 1:],
result = 0.5 * (diff_lambda * diff_time).
The function takes no source of randomness (contrast compute_integral_unbiased,
whose embedding needs an explicit stream of uniform draws). -/
def compute_integral_biased (all_lambda time non_pad_mask : List (List α)) :
    List (List α) :=
  let diff_time := zip2 (· * ·) (zip2 (· - ·) (slice1 time) (sliceInit time))
      (slice1 non_pad_mask)
  let diff_lambda := zip2 (· * ·)
      (zip2 (· + ·) (slice1 all_lambda) (sliceInit all_lambda))
      (slice1 non_pad_mask)
  let biased_integral := zip2 (· * ·) diff_lambda diff_time
  smul2 (1 / 2) biased_integral

/-! ### time_loss (utils.py lines 129-140) -/

/-- Embedding of time_loss.  The source first performs the in-place
`prediction.squeeze_(-1)` (dropping the trailing singleton dimension), so the
function returns the squared-error sum together with the final value of the
caller's prediction tensor (rank 2 after the in-place squeeze). -/
def time_loss (prediction : List (List (List α))) (event_time : List (List α)) :
    α × List (List α) :=
  let prediction1 := prediction.map (List.map (fun c => c.headD 0))
  let true_gap := zip2 (· - ·) (slice1 event_time) (sliceInit event_time)
  let prediction2 := sliceInit prediction1
  let diff := zip2 (· - ·) prediction2 true_gap
  let se := sum2 (zip2 (· * ·) diff diff)
  (se, prediction1)

/-! ### type_loss (utils.py lines 94-126) -/

/-- Index of a maximal entry (first one in case of ties), auxiliary scan:
argmaxPair x ys is the (index, value) of a maximum of x :: ys. -/
def argmaxPair : α → List α → ℕ × α
  | x, [] => (0, x)
  | x, y :: ys =>
      let p := argmaxPair y ys
      if p.2 > x then (p.1 + 1, p.2) else (0, x)

/-- Embedding of torch.max(_, dim=-1)[1] on one class vector: the index of a
maximal entry (ties broken towards the first). -/
def argmaxIdx (xs : List α) : ℕ :=
  match xs with
  | [] => 0
  | x :: ys => (argmaxPair x ys).1

/-- pred_type = torch.max(prediction, dim=-1)[1]. -/
def predType (p : List (List (List α))) : List (List ℤ) :=
  p.map (List.map (fun cs => (argmaxIdx cs : ℤ)))

/-- truth = types[:, 1:] - 1. -/
def shiftedTruth (types : List (List ℤ)) : List (List ℤ) :=
  types.map (fun r => r.tail.map (fun v => v - 1))

/-- Index of the first padding sentinel: torch.nonzero(row == -1)[0]
(none when the row holds no -1, which torch reports as an empty index
tensor). -/
def firstSentinel : List ℤ → Option ℕ
  | [] => none
  | v :: t => if v = -1 then some 0 else (firstSentinel t).map (fun k => k + 1)

/-- Per-sequence trimming of the truth and prediction rows at the first
occurrence of the padding sentinel -1 in the truth row (the whole rows when
no -1 occurs), as in the reporting loop of type_loss. -/
def trimRow (t p : List ℤ) : List ℤ × List ℤ :=
  match firstSentinel t with
  | none => (t, p)
  | some k => (t.take k, p.take k)

/-- Embedding of type_loss.  The loss functional (cross entropy or label
smoothing, applied to the shifted prediction and truth) is abstracted as the
function argument loss_func, since only its summed value is used. -/
def type_loss (prediction : List (List (List α))) (types : List (List ℤ))
    (loss_func : List (List (List α)) → List (List ℤ) → List α) :
    α × ℕ × List ℤ × List ℤ :=
  let truth := shiftedTruth types
  let prediction1 := prediction.map List.dropLast
  let pred_type := predType prediction1
  let correct_num :=
    ((pred_type.zip truth).map
      (fun pt => (pt.1.zip pt.2).countP (fun q => q.1 == q.2))).sum
  let trimmed := (truth.zip pred_type).map (fun tp => trimRow tp.1 tp.2)
  let true_list := (trimmed.map (fun q => q.1)).flatten
  let pred_list := (trimmed.map (fun q => q.2)).flatten
  let loss_r := (loss_func prediction1 truth).sum
  (loss_r, correct_num, true_list, pred_list)

/-! ### LabelSmoothingLoss smoothing (utils.py lines 170-171) -/

/-- F.one_hot(t, num_classes=K) as a row vector. -/
def oneHotRow (K : ℕ) (t : ℤ) : List α :=
  (List.range K).map (fun (i : ℕ) => if (i : ℤ) = t then 1 else 0)

/-- The smoothed target row of LabelSmoothingLoss.forward:
one_hot * (1 - eps) + (1 - one_hot) * eps / num_classes. -/
def smoothedRow (eps : α) (K : ℕ) (t : ℤ) : List α :=
  (oneHotRow K t).map (fun h => h * (1 - eps) + (1 - h) * eps / K)

end Field

/-! ### LabelSmoothingLoss construction (utils.py lines 150-156) -/

/-- The state of a LabelSmoothingLoss object: smoothing factor eps,
number of classes, ignore index. -/
structure LabelSmoothingLoss where
  eps : ℚ
  num_classes : ℕ
  ignore_index : ℤ
deriving DecidableEq

/-- Embedding of LabelSmoothingLoss.__init__.  The source asserts
0.0 < label_smoothing <= 1.0 before storing the fields; a failing assert
(an AssertionError) is modelled as none. -/
def LabelSmoothingLoss.init (label_smoothing : ℚ) (tgt_vocab_size : ℕ)
    (ignore_index : ℤ) : Option LabelSmoothingLoss :=
  if 0 < label_smoothing ∧ label_smoothing ≤ 1 then
    some { eps := label_smoothing, num_classes := tgt_vocab_size,
           ignore_index := ignore_index }
  else none

/-! ### Real-valued routines (log / exp based) -/

noncomputable section RealPart

/-- The additive epsilon math.pow(10, -9) of compute_event. -/
def eps9 : ℝ := 1 / 10 ^ 9

/-- Embedding of softplus (utils.py lines 9-13) on one entry:
temp = beta * x, hard-thresholded at 20 (temp[temp > 20] = 20), then
1.0 / beta * log(1 + exp(temp)). -/
def softplusScalar (beta x : ℝ) : ℝ :=
  let temp := beta * x
  let temp2 := if 20 < temp then 20 else temp
  1 / beta * Real.log (1 + Real.exp temp2)

/-- Embedding of softplus on a tensor (elementwise over its entries),
with a scalar beta. -/
def softplus (x : List ℝ) (beta : ℝ) : List ℝ :=
  x.map (softplusScalar beta)

/-- Embedding of compute_event (utils.py lines 16-24).  The source mutates
its event argument in place (event += 1e-9, then
event.masked_fill_(~non_pad_mask.bool(), 1.0)); the embedding returns the
log result together with the final value of the caller's event tensor.
The float mask is booleanized exactly as ~non_pad_mask.bool(): positions
with mask value 0 are filled with 1.0. -/
def compute_event (event non_pad_mask : List (List ℝ)) :
    List (List ℝ) × List (List ℝ) :=
  let event1 := event.map (List.map (fun v => v + eps9))
  let event2 := List.zipWith
      (fun r m => List.zipWith (fun v b => if b = 0 then (1 : ℝ) else v) r m)
      event1 non_pad_mask
  (event2.map (List.map Real.log), event2)

/-- F.log_softmax on one row: x_i - log (sum_j exp x_j).  (The library
implementation subtracts the row maximum for numerical stability, which
leaves the mathematical value unchanged.) -/
def logSoftmax (row : List ℝ) : List ℝ :=
  row.map (fun v => v - Real.log ((row.map Real.exp).sum))

/-- Embedding of LabelSmoothingLoss.forward (utils.py lines 158-173).
The source mutates the caller's target tensor in place
(target[target.eq(self.ignore_index)] = 0); the embedding returns the
per-position loss vector together with the final value of the target. -/
def LabelSmoothingLoss.forward (lsl : LabelSmoothingLoss)
    (output : List (List ℝ)) (target : List ℤ) : List ℝ × List ℤ :=
  let non_pad_mask : List ℝ :=
    target.map (fun t => if t ≠ lsl.ignore_index then 1 else 0)
  let target1 := target.map (fun t => if t = lsl.ignore_index then 0 else t)
  let one_hot := target1.map
      (fun t => smoothedRow ((lsl.eps : ℚ) : ℝ) lsl.num_classes t)
  let log_prb := output.map logSoftmax
  let loss := List.zipWith
      (fun oh lp => -(List.zipWith (· * ·) oh lp).sum) one_hot log_prb
  let loss2 := List.zipWith (· * ·) loss non_pad_mask
  (loss2, target1)

/-! ### The external model object and the Monte-Carlo routines.

These are embedded for completeness of the development (no claim's theorem
depends on them beyond what the defs above cover).  The model object is an
external collaborator (per the spec), so its per-process linear projections
are abstracted as functions on one position's hidden vector. -/

/-- The external model parameters used by the Monte-Carlo integral: the
per-process linear projections, the drift alpha, the intensity scale beta,
and the per-process class counts. -/
structure Model where
  linear_list : List (List ℝ → List ℝ)
  alpha : ℝ
  beta : ℝ
  num_types : List ℕ

/-- Application of a per-position linear layer to a (batch, length, d)
tensor. -/
def applyLinear (f : List ℝ → List ℝ) (data : List (List (List ℝ))) :
    List (List (List ℝ)) :=
  data.map (List.map f)

/-- Embedding of compute_integral_unbiased (utils.py lines 38-60).  The
ambient randomness torch.rand([*diff_time.size(), num_samples]) is passed
explicitly as the rand argument (a (batch, length-1, num_samples) tensor of
uniform draws); the source's print statements have no effect on the value.
Layout line by line: diff_time as in the biased variant; temp_time =
diff_time.unsqueeze(2) * rand, divided in place by
(time[:, :-1] + 1).unsqueeze(2); temp_hid = linear(data)[:, 1:, :] summed
against type_mask[:, 1:, :] over the class dimension (keepdim);
all_lambda = softplus(temp_hid + alpha * temp_time, |beta|), summed over
the sample dimension and divided by num_samples; result =
all_lambda * diff_time. -/
def compute_integral_unbiased (model : Model) (process_idx : ℕ)
    (data : List (List (List ℝ))) (time : List (List ℝ))
    (non_pad_mask : List (List ℝ)) (type_mask : List (List (List ℝ)))
    (rand : List (List (List ℝ))) : List (List ℝ) :=
  let num_samples : ℕ := 100
  let diff_time := zip2 (· * ·) (zip2 (· - ·) (slice1 time) (sliceInit time))
      (slice1 non_pad_mask)
  let temp_time := List.zipWith
      (fun dr rr => List.zipWith (fun d samples => samples.map (fun u => d * u))
        dr rr) diff_time rand
  let temp_time := List.zipWith
      (fun tr t0r => List.zipWith
        (fun samples t0 => samples.map (fun s => s / (t0 + 1))) tr t0r.dropLast)
      temp_time time
  let temp_hid :=
    (applyLinear (model.linear_list.getD process_idx id) data).map List.tail
  let temp_hid := List.zipWith
      (fun hr mr => List.zipWith
        (fun hv mv => [(List.zipWith (· * ·) hv mv).sum]) hr mr)
      temp_hid (type_mask.map List.tail)
  let all_lambda := List.zipWith
      (fun hr tr => List.zipWith
        (fun h1 samples => samples.map
          (fun s => softplusScalar |model.beta| (h1.headD 0 + model.alpha * s)))
        hr tr) temp_hid temp_time
  let all_lambda := all_lambda.map
      (List.map (fun samples => samples.sum / (num_samples : ℝ)))
  zip2 (· * ·) all_lambda diff_time

/-- Modelled from the spec: get_non_pad_mask lives in the external model
module (model.py, not part of src); per the spec's data model, padding
positions are the ones with event type 0, and the non-pad mask holds 1 for
real events and 0 for padding (the source squeezes away a trailing
singleton dimension, which the rank-2 embedding never introduces). -/
def get_non_pad_mask (types : List (List ℤ)) : List (List ℝ) :=
  types.map (List.map (fun t => if t = 0 then (0 : ℝ) else 1))

/-- Embedding of log_likelihood (utils.py lines 63-91): one-hot type mask
from raw types, all-type intensities via softplus, the intensity at the true
type, the event term via compute_event (applied to the locally computed
type_lambda tensor), and the non-event term via the unbiased Monte-Carlo
integral (the biased path exists but is commented out in the source). -/
def log_likelihood (model : Model) (process_idx : ℕ)
    (data : List (List (List ℝ))) (time : List (List ℝ))
    (types : List (List ℤ)) (rand : List (List (List ℝ))) :
    List ℝ × List ℝ :=
  let non_pad_mask := get_non_pad_mask types
  let num_types := model.num_types.getD process_idx 0
  let type_mask := types.map (List.map
      (fun t => (List.range num_types).map
        (fun i => if t = (i : ℤ) + 1 then (1 : ℝ) else 0)))
  let all_hid := applyLinear (model.linear_list.getD process_idx id) data
  let all_lambda := all_hid.map (List.map (List.map
      (softplusScalar |model.beta|)))
  let type_lambda := List.zipWith
      (fun lr mr => List.zipWith
        (fun lv mv => (List.zipWith (· * ·) lv mv).sum) lr mr)
      all_lambda type_mask
  let event_ll := (compute_event type_lambda non_pad_mask).1
  let event_ll := event_ll.map List.sum
  let non_event_ll := compute_integral_unbiased model process_idx data time
      non_pad_mask type_mask rand
  let non_event_ll := non_event_ll.map List.sum
  (event_ll, non_event_ll)

end RealPart

/-! ### Entry access through the tensor operations -/

theorem length_slice1 {α : Type} (x : List (List α)) :
    (slice1 x).length = x.length := by
  simp [slice1]

theorem length_sliceInit {α : Type} (x : List (List α)) :
    (sliceInit x).length = x.length := by
  simp [sliceInit]

theorem length_zip2 {α : Type} (f : α → α → α) (x y : List (List α)) :
    (zip2 f x y).length = min x.length y.length := by
  simp [zip2]

theorem length_smul2 {α : Type} [Mul α] (c : α) (x : List (List α)) :
    (smul2 c x).length = x.length := by
  simp [smul2]

theorem getD_slice1 {α : Type} (x : List (List α)) (i : ℕ) (h : i < x.length) :
    (slice1 x).getD i [] = (x.getD i []).tail := by
  simpa [slice1] using getD_map List.tail x i [] [] h

theorem getD_sliceInit {α : Type} (x : List (List α)) (i : ℕ)
    (h : i < x.length) :
    (sliceInit x).getD i [] = (x.getD i []).dropLast := by
  simpa [sliceInit] using getD_map List.dropLast x i [] [] h

theorem getD_zip2 {α : Type} (f : α → α → α) (x y : List (List α)) (i : ℕ)
    (hx : i < x.length) (hy : i < y.length) :
    (zip2 f x y).getD i [] = List.zipWith f (x.getD i []) (y.getD i []) := by
  simpa [zip2] using
    getD_zipWith (fun r s => List.zipWith f r s) x y i [] [] [] hx hy

theorem getD_smul2 {α : Type} [Mul α] (c : α) (x : List (List α)) (i : ℕ)
    (h : i < x.length) :
    (smul2 c x).getD i [] = (x.getD i []).map (fun v => c * v) := by
  simpa [smul2] using getD_map (List.map (fun v => c * v)) x i [] [] h

/-! ### Claim C10: the thresholded softplus is non-negative -/

/-- C10: for every input tensor x and every beta > 0, every entry of the
thresholded softplus (clamp beta*x at 20, then log(1 + exp) / beta) is
greater than or equal to 0. -/
theorem softplus_nonneg (x : List ℝ) (beta : ℝ) (hb : 0 < beta) :
    ∀ v ∈ softplus x beta, 0 ≤ v := by
  intro v hv
  simp only [softplus, List.mem_map] at hv
  obtain ⟨u, _, rfl⟩ := hv
  show 0 ≤ 1 / beta *
    Real.log (1 + Real.exp (if 20 < beta * u then 20 else beta * u))
  have h1 : (0 : ℝ) ≤ 1 / beta := by positivity
  refine mul_nonneg h1 (Real.log_nonneg ?_)
  have h2 := Real.exp_pos (if 20 < beta * u then (20 : ℝ) else beta * u)
  linarith

theorem softplus_nonneg_witness :
    (0 : ℝ) < 1 ∧ ∀ v ∈ softplus [3] 1, 0 ≤ v :=
  ⟨by norm_num, softplus_nonneg [3] 1 (by norm_num)⟩

/-! ### Claim C6: padded positions of compute_event are exactly 0 -/

/-- C6: for every intensity tensor and every non-pad mask, the value
compute_event returns at a padded position (mask entry 0) is exactly 0,
regardless of the intensity originally stored there: the intensity is
forced to 1.0 before the log, and log 1 = 0.  Hence padded positions
contribute exactly 0 to the summed event log-likelihood. -/
theorem compute_event_pad_zero (event non_pad_mask : List (List ℝ)) (i j : ℕ)
    (hi : i < event.length) (him : i < non_pad_mask.length)
    (hj : j < (event.getD i []).length)
    (hjm : j < (non_pad_mask.getD i []).length)
    (hpad : (non_pad_mask.getD i []).getD j 0 = 0) :
    (((compute_event event non_pad_mask).1).getD i []).getD j 1 = 0 := by
  simp only [compute_event]
  have h1 : i < (event.map (List.map (fun v => v + eps9))).length := by
    simpa using hi
  have h2 : i < (List.zipWith
      (fun r m => List.zipWith (fun v b => if b = 0 then (1 : ℝ) else v) r m)
      (event.map (List.map (fun v => v + eps9))) non_pad_mask).length := by
    simp only [List.length_zipWith, List.length_map]
    omega
  rw [getD_map (List.map Real.log) _ i [] [] h2,
    getD_zipWith _ _ _ i [] [] [] h1 him,
    getD_map (List.map (fun v => v + eps9)) event i [] [] hi]
  have h3 : j < (List.zipWith (fun v b => if b = 0 then (1 : ℝ) else v)
      ((event.getD i []).map (fun v => v + eps9))
      (non_pad_mask.getD i [])).length := by
    simp only [List.length_zipWith, List.length_map]
    omega
  rw [getD_map Real.log _ j 0 1 h3,
    getD_zipWith _ _ _ j 0 0 0 (by simpa using hj) hjm, hpad]
  simp

theorem compute_event_pad_zero_witness :
    (((compute_event [[5]] [[0]]).1).getD 0 []).getD 0 1 = 0 :=
  compute_event_pad_zero [[5]] [[0]] 0 0 (by simp) (by simp) (by simp)
    (by simp) (by simp)

/-! ### Claim C4: entrywise value of compute_integral_biased -/

/-- C4: each entry of compute_integral_biased equals the time gap of the
adjacent pair multiplied by the mean of the intensities at the two
endpoints, masked by validity of the later position (the factor 1/2 of the
source realizes the mean of the two endpoint intensities); and the function
is deterministic: identical inputs yield identical outputs (its embedding
takes no source of randomness, unlike compute_integral_unbiased, which
needs an explicit tensor of uniform draws). -/
theorem compute_integral_biased_spec (α : Type) [LinearOrderedField α] :
    (∀ (all_lambda time non_pad_mask : List (List α)) (i j : ℕ),
      i < all_lambda.length → i < time.length → i < non_pad_mask.length →
      j + 1 < (all_lambda.getD i []).length →
      j + 1 < (time.getD i []).length →
      j + 1 < (non_pad_mask.getD i []).length →
      ((non_pad_mask.getD i []).getD (j+1) 0 = 0 ∨
        (non_pad_mask.getD i []).getD (j+1) 0 = 1) →
      ((compute_integral_biased all_lambda time non_pad_mask).getD i []).getD j 0
        = ((time.getD i []).getD (j+1) 0 - (time.getD i []).getD j 0)
          * (((all_lambda.getD i []).getD j 0
              + (all_lambda.getD i []).getD (j+1) 0) / 2)
          * (non_pad_mask.getD i []).getD (j+1) 0)
    ∧ (∀ a₁ t₁ m₁ a₂ t₂ m₂ : List (List α), a₁ = a₂ → t₁ = t₂ → m₁ = m₂ →
        compute_integral_biased a₁ t₁ m₁ = compute_integral_biased a₂ t₂ m₂) := by
  constructor
  · intro all_lambda time non_pad_mask i j hia hit him hja hjt hjm hmask
    simp only [compute_integral_biased]
    have hDT : i < (zip2 (· * ·)
        (zip2 (· - ·) (slice1 time) (sliceInit time))
        (slice1 non_pad_mask)).length := by
      simp only [length_zip2, length_slice1, length_sliceInit]
      omega
    have hDL : i < (zip2 (· * ·)
        (zip2 (· + ·) (slice1 all_lambda) (sliceInit all_lambda))
        (slice1 non_pad_mask)).length := by
      simp only [length_zip2, length_slice1, length_sliceInit]
      omega
    have hBI : i < (zip2 (· * ·)
        (zip2 (· * ·) (zip2 (· + ·) (slice1 all_lambda) (sliceInit all_lambda))
          (slice1 non_pad_mask))
        (zip2 (· * ·) (zip2 (· - ·) (slice1 time) (sliceInit time))
          (slice1 non_pad_mask))).length := by
      simp only [length_zip2, length_slice1, length_sliceInit]
      omega
    rw [getD_smul2 _ _ i hBI, getD_zip2 _ _ _ i hDL hDT,
      getD_zip2 _ _ _ i (by simpa [length_zip2, length_slice1,
        length_sliceInit] using hia) (by simpa [length_slice1] using him),
      getD_zip2 _ _ _ i (by simpa [length_slice1] using hia)
        (by simpa [length_sliceInit] using hia),
      getD_zip2 _ _ _ i (by simpa [length_zip2, length_slice1,
        length_sliceInit] using hit) (by simpa [length_slice1] using him),
      getD_zip2 _ _ _ i (by simpa [length_slice1] using hit)
        (by simpa [length_sliceInit] using hit),
      getD_slice1 _ i hia, getD_sliceInit _ i hia,
      getD_slice1 _ i hit, getD_sliceInit _ i hit,
      getD_slice1 _ i him]
    have hrow : j < (List.zipWith (· * ·)
        (List.zipWith (· * ·)
          (List.zipWith (· + ·) (all_lambda.getD i []).tail
            (all_lambda.getD i []).dropLast)
          (non_pad_mask.getD i []).tail)
        (List.zipWith (· * ·)
          (List.zipWith (· - ·) (time.getD i []).tail
            (time.getD i []).dropLast)
          (non_pad_mask.getD i []).tail)).length := by
      simp only [List.length_zipWith, List.length_tail, List.length_dropLast]
      omega
    rw [getD_map _ _ j 0 0 hrow,
      getD_zipWith _ _ _ j 0 0 0 (by
        simp only [List.length_zipWith, List.length_tail,
          List.length_dropLast]; omega) (by
        simp only [List.length_zipWith, List.length_tail,
          List.length_dropLast]; omega),
      getD_zipWith _ _ _ j 0 0 0 (by
        simp only [List.length_zipWith, List.length_tail,
          List.length_dropLast]; omega) (by
        simp only [List.length_tail]; omega),
      getD_zipWith _ _ _ j 0 0 0 (by
        simp only [List.length_tail]; omega) (by
        simp only [List.length_dropLast]; omega),
      getD_zipWith _ _ _ j 0 0 0 (by
        simp only [List.length_zipWith, List.length_tail,
          List.length_dropLast]; omega) (by
        simp only [List.length_tail]; omega),
      getD_zipWith _ _ _ j 0 0 0 (by
        simp only [List.length_tail]; omega) (by
        simp only [List.length_dropLast]; omega),
      getD_tail, getD_tail, getD_tail,
      getD_dropLast _ j 0 hja, getD_dropLast _ j 0 hjt]
    rcases hmask with hm | hm <;> rw [hm] <;> ring
  · intro a₁ t₁ m₁ a₂ t₂ m₂ ha ht hm
    rw [ha, ht, hm]

theorem compute_integral_biased_spec_witness :
    ((compute_integral_biased [[(2 : ℚ), 4]] [[1, 3]] [[1, 1]]).getD 0
      []).getD 0 0 = 6 :=
  ((compute_integral_biased_spec ℚ).1 [[2, 4]] [[1, 3]] [[1, 1]] 0 0
    (by decide) (by decide) (by decide) (by decide) (by decide) (by decide)
    (Or.inr (by norm_num [List.getD_cons_succ, List.getD_cons_zero]))).trans
    (by norm_num [List.getD_cons_succ, List.getD_cons_zero])

/-! ### Claim C9: time_loss is the unmasked sum of squared gap errors -/

theorem zipWith_self {α β : Type} (f : α → α → β) :
    ∀ l : List α, List.zipWith f l l = l.map (fun a => f a a) := by
  intro l
  induction l with
  | nil => rfl
  | cons x xs ih => simp [ih]

theorem sum2_self_diff_zero {α : Type} [LinearOrderedField α]
    (x : List (List α)) :
    sum2 (zip2 (· * ·) (zip2 (· - ·) x x) (zip2 (· - ·) x x)) = 0 := by
  have hz : zip2 (· - ·) x x = x.map (List.map (fun _ => (0 : α))) := by
    simp [zip2, zipWith_self, sub_self]
  rw [hz]
  have hm : zip2 (· * ·) (x.map (List.map (fun _ => (0 : α))))
      (x.map (List.map (fun _ => (0 : α))))
      = x.map (List.map (fun _ => (0 : α))) := by
    simp [zip2, zipWith_self, Function.comp_def, mul_zero]
  rw [hm]
  simp [sum2, List.sum_eq_zero]

/-- C9: time_loss returns the sum of squared differences between the
predicted gaps (the squeezed prediction[:, :-1]) and the true inter-event
gaps (event_time[:, 1:] - event_time[:, :-1]) over all positions, with no
masking; in particular, when the prediction exactly equals the true gaps,
the returned sum of squares is exactly 0. -/
theorem time_loss_spec (α : Type) [LinearOrderedField α] :
    (∀ (prediction : List (List (List α))) (event_time : List (List α)),
      (time_loss prediction event_time).1
        = sum2 (zip2 (· * ·)
            (zip2 (· - ·)
              (sliceInit (prediction.map (List.map (fun c => c.headD 0))))
              (zip2 (· - ·) (slice1 event_time) (sliceInit event_time)))
            (zip2 (· - ·)
              (sliceInit (prediction.map (List.map (fun c => c.headD 0))))
              (zip2 (· - ·) (slice1 event_time) (sliceInit event_time)))))
    ∧ (∀ (prediction : List (List (List α))) (event_time : List (List α)),
      sliceInit (prediction.map (List.map (fun c => c.headD 0)))
        = zip2 (· - ·) (slice1 event_time) (sliceInit event_time) →
      (time_loss prediction event_time).1 = 0) := by
  constructor
  · intro prediction event_time
    rfl
  · intro prediction event_time h
    show sum2 (zip2 (· * ·)
        (zip2 (· - ·)
          (sliceInit (prediction.map (List.map (fun c => c.headD 0))))
          (zip2 (· - ·) (slice1 event_time) (sliceInit event_time)))
        (zip2 (· - ·)
          (sliceInit (prediction.map (List.map (fun c => c.headD 0))))
          (zip2 (· - ·) (slice1 event_time) (sliceInit event_time)))) = 0
    rw [h]
    exact sum2_self_diff_zero _

theorem time_loss_spec_witness :
    (time_loss [[[(1 : ℚ)], [2], [9]]] [[0, 1, 3]]).1 = 0 :=
  (time_loss_spec ℚ).2 [[[1], [2], [9]]] [[0, 1, 3]]
    (by simp [sliceInit, slice1, zip2]; norm_num)

/-! ### Claim C1: the mass of the smoothed target distribution -/

theorem sum_map_ite_range {α : Type} [LinearOrderedField α] (a b : α) :
    ∀ (K t' : ℕ), t' < K →
      ((List.range K).map (fun i => if i = t' then a else b)).sum
        = a + ((K : α) - 1) * b := by
  intro K
  induction K with
  | zero => intro t' h; omega
  | succ n ih =>
      intro t' h
      rw [List.range_succ, List.map_append, List.sum_append]
      by_cases ht : t' = n
      · subst ht
        have hconst : (List.range t').map (fun i => if i = t' then a else b)
            = (List.range t').map (fun _ => b) := by
          apply List.map_congr_left
          intro i hi
          have hlt : i < t' := List.mem_range.mp hi
          simp [Nat.ne_of_lt hlt]
        rw [hconst]
        simp only [List.map_const', List.length_range, List.sum_replicate,
          List.map_cons, List.map_nil, List.sum_cons, List.sum_nil,
          if_pos rfl, smul_eq_mul]
        push_cast
        ring
      · have hlt : t' < n := by omega
        rw [ih t' hlt]
        simp only [List.map_cons, List.map_nil, List.sum_cons, List.sum_nil,
          if_neg (by omega : ¬ n = t')]
        push_cast
        ring

/-- C1 amended: the smoothed target distribution built by
LabelSmoothingLoss.forward from a valid integer target (0 ≤ t < K) sums to
1 - eps/K over the class dimension, not to 1: the true class receives mass
(1-eps) and each of the other K-1 classes receives eps/K, so a mass of
eps/K is missing. -/
theorem smoothedRow_sum (α : Type) [LinearOrderedField α] (eps : α) (K : ℕ)
    (t : ℤ) (_heps0 : 0 < eps) (_heps1 : eps ≤ 1) (h0 : 0 ≤ t)
    (hK : t < (K : ℤ)) :
    (smoothedRow eps K t).sum = 1 - eps / K := by
  have hKpos : 0 < K := by omega
  have hne : (K : α) ≠ 0 := Nat.cast_ne_zero.mpr (by omega)
  have ht' : t.toNat < K := by omega
  have hrow : smoothedRow eps K t
      = (List.range K).map
          (fun i => if i = t.toNat then 1 - eps else eps / K) := by
    unfold smoothedRow oneHotRow
    rw [List.map_map]
    apply List.map_congr_left
    intro i hi
    by_cases hit : i = t.toNat
    · have hc : (i : ℤ) = t := by omega
      simp only [Function.comp_apply, if_pos hc, if_pos hit]
      ring
    · have hc : ¬ (i : ℤ) = t := by omega
      simp only [Function.comp_apply, if_neg hc, if_neg hit]
      ring
  rw [hrow, sum_map_ite_range _ _ K t.toNat ht']
  field_simp
  ring

theorem smoothedRow_sum_witness :
    (smoothedRow ((1 : ℚ) / 2) 2 0).sum = 3 / 4 :=
  (smoothedRow_sum ℚ (1 / 2) 2 0 (by norm_num) (by norm_num) (by norm_num)
    (by norm_num)).trans (by norm_num)

/-- C1 counterexample: at smoothing factor eps = 1/2 (inside (0,1]) and
K = 2 classes with true class 0, the smoothed target distribution of
LabelSmoothingLoss.forward sums to 3/4, not 1. -/
theorem smoothedRow_sum_ne_one : (smoothedRow ((1 : ℚ) / 2) 2 0).sum ≠ 1 := by
  simp [smoothedRow, oneHotRow, List.range_succ]
  norm_num

/-! ### Claim C3: the constructor validates the smoothing factor -/

/-- C3 amended: LabelSmoothingLoss.__init__ does perform explicit
precondition validation: it asserts 0 < label_smoothing <= 1, so
construction with a smoothing factor outside (0,1] fails fast with an
AssertionError (modelled as none) instead of surfacing later as a generic
numeric error; on success the fields are stored unchanged.  (The other
operations of the module perform no explicit validation, as their
embeddings are total functions.) -/
theorem init_validates :
    ∀ (ls : ℚ) (K : ℕ) (ig : ℤ),
      (LabelSmoothingLoss.init ls K ig = none ↔ ¬(0 < ls ∧ ls ≤ 1))
      ∧ (∀ lsl, LabelSmoothingLoss.init ls K ig = some lsl →
          lsl.eps = ls ∧ lsl.num_classes = K ∧ lsl.ignore_index = ig) := by
  intro ls K ig
  unfold LabelSmoothingLoss.init
  split_ifs with h
  · refine ⟨by simp [h], ?_⟩
    intro lsl hl
    cases Option.some.inj hl
    exact ⟨rfl, rfl, rfl⟩
  · refine ⟨by simp [h], ?_⟩
    intro lsl hl
    exact absurd hl (by simp)

theorem init_validates_witness :
    LabelSmoothingLoss.init 3 4 (-1) = none :=
  (init_validates 3 4 (-1)).1.mpr (by norm_num)

/-- C3 counterexample: constructing LabelSmoothingLoss with smoothing
factor 2, which lies outside (0,1], does raise an explicit validation
failure (the assert fires, modelled as none). -/
theorem init_rejects_two : LabelSmoothingLoss.init 2 3 (-100) = none := by
  norm_num [LabelSmoothingLoss.init]

/-! ### Claim C8: forward mutates the caller's target tensor -/

/-- C8: LabelSmoothingLoss.forward mutates the caller's target tensor in
place: after the call the target has the same length, every entry that
originally equalled the ignore-index sentinel is 0, and every other entry
is unchanged. -/
theorem forward_mutates_target (lsl : LabelSmoothingLoss)
    (output : List (List ℝ)) (target : List ℤ) :
    ((lsl.forward output target).2).length = target.length
    ∧ ∀ i, i < target.length →
        ((lsl.forward output target).2).getD i 0
          = if target.getD i 0 = lsl.ignore_index then 0
            else target.getD i 0 := by
  constructor
  · simp [LabelSmoothingLoss.forward]
  · intro i hi
    show (target.map
        (fun t => if t = lsl.ignore_index then 0 else t)).getD i 0 = _
    rw [getD_map _ target i 0 0 hi]

theorem forward_mutates_target_witness :
    ((LabelSmoothingLoss.forward ⟨1 / 2, 2, -100⟩ [[0, 0], [0, 0]]
      [3, -100]).2).getD 1 0 = 0 := by
  have h := (forward_mutates_target ⟨1 / 2, 2, -100⟩ [[0, 0], [0, 0]]
    [3, -100]).2 1 (by norm_num)
  simpa [List.getD_cons_succ, List.getD_cons_zero] using h

/-! ### Claim C5: correct-count and the arg-max range -/

theorem argmaxPair_fst_le {α : Type} [LinearOrderedField α] :
    ∀ (ys : List α) (x : α), (argmaxPair x ys).1 ≤ ys.length := by
  intro ys
  induction ys with
  | nil => intro x; simp [argmaxPair]
  | cons y ys ih =>
      intro x
      show (if (argmaxPair y ys).2 > x
          then ((argmaxPair y ys).1 + 1, (argmaxPair y ys).2)
          else (0, x)).1 ≤ ys.length + 1
      split_ifs
      · simpa using Nat.succ_le_succ (ih y)
      · simp

theorem argmaxIdx_lt_length {α : Type} [LinearOrderedField α] (cs : List α)
    (h : cs ≠ []) : argmaxIdx cs < cs.length := by
  cases cs with
  | nil => exact absurd rfl h
  | cons x ys =>
      show (argmaxPair x ys).1 < ys.length + 1
      exact Nat.lt_succ_of_le (argmaxPair_fst_le ys x)

theorem countP_zip_cast (ns : List ℕ) (ts : List ℤ) :
    ((ns.map (fun (n : ℕ) => (n : ℤ))).zip ts).countP (fun q => q.1 == q.2)
      = ((ns.map (fun (n : ℕ) => (n : ℤ))).zip ts).countP
          (fun q => decide (q.2 ≠ -1) && (q.1 == q.2)) := by
  apply List.countP_congr
  intro q hq
  obtain ⟨a, b⟩ := q
  have ha : a ∈ ns.map (fun (n : ℕ) => (n : ℤ)) := (List.of_mem_zip hq).1
  obtain ⟨n, _, rfl⟩ := List.mem_map.mp ha
  cases hnb : ((n : ℤ) == b) with
  | false => simp [hnb]
  | true =>
      have hb : (n : ℤ) = b := by simpa using hnb
      have hne : b ≠ -1 := by omega
      simp [hnb, hne]

/-- C5: the correct-count of type_loss is the number of positions, over the
full shifted prediction/truth tensors including padding positions, where
the arg-max predicted class equals the shifted truth; the arg-max class
index always lies in [0, K-1] (K the length of the class vector), so it can
never equal the padding sentinel -1, and padded positions therefore never
contribute to the correct-count (the count over all positions equals the
count restricted to positions whose truth is not -1). -/
theorem type_loss_correct_spec (α : Type) [LinearOrderedField α] :
    (∀ (prediction : List (List (List α))) (types : List (List ℤ))
        (loss_func : List (List (List α)) → List (List ℤ) → List α),
      (type_loss prediction types loss_func).2.1
        = (((predType (prediction.map List.dropLast)).zip
            (shiftedTruth types)).map
            (fun pt => (pt.1.zip pt.2).countP (fun q => q.1 == q.2))).sum
      ∧ (type_loss prediction types loss_func).2.1
        = (((predType (prediction.map List.dropLast)).zip
            (shiftedTruth types)).map
            (fun pt => (pt.1.zip pt.2).countP
              (fun q => decide (q.2 ≠ -1) && (q.1 == q.2)))).sum)
    ∧ (∀ (cs : List α), cs ≠ [] → argmaxIdx cs < cs.length) := by
  constructor
  · intro prediction types lf
    refine ⟨rfl, ?_⟩
    show (((predType (prediction.map List.dropLast)).zip
        (shiftedTruth types)).map
        (fun pt => (pt.1.zip pt.2).countP (fun q => q.1 == q.2))).sum = _
    refine congrArg List.sum (List.map_congr_left ?_)
    intro pt hpt
    obtain ⟨p, t⟩ := pt
    have hp : p ∈ predType (prediction.map List.dropLast) :=
      (List.of_mem_zip hpt).1
    obtain ⟨row, _, hrow⟩ := List.mem_map.mp hp
    have hcast : p = (row.map argmaxIdx).map (fun (n : ℕ) => (n : ℤ)) := by
      rw [← hrow, List.map_map]
      rfl
    simpa [hcast] using countP_zip_cast (row.map argmaxIdx) t
  · intro cs h
    exact argmaxIdx_lt_length cs h

theorem type_loss_correct_witness :
    (type_loss [[[(0 : ℚ), 1], [1, 0], [0, 0]]] [[1, 2, 0]]
      (fun _ _ => [])).2.1 = 1
    ∧ argmaxIdx [(3 : ℚ), 5] < 2 :=
  ⟨(((type_loss_correct_spec ℚ).1 [[[0, 1], [1, 0], [0, 0]]] [[1, 2, 0]]
      (fun _ _ => [])).2).trans (by decide),
    (type_loss_correct_spec ℚ).2 [3, 5] (by simp)⟩

/-! ### Claim C7: the reported lists are trimmed at the first sentinel -/

theorem firstSentinel_none_iff :
    ∀ t : List ℤ, firstSentinel t = none ↔ (-1 : ℤ) ∉ t := by
  intro t
  induction t with
  | nil => simp [firstSentinel]
  | cons v t ih =>
      by_cases hv : v = -1
      · simp [firstSentinel, hv]
      · simp only [firstSentinel, if_neg hv, Option.map_eq_none', ih,
          List.mem_cons]
        constructor
        · intro h hc
          rcases hc with hc | hc
          · exact hv hc.symm
          · exact h hc
        · intro h hc
          exact h (Or.inr hc)

theorem firstSentinel_spec :
    ∀ (t : List ℤ) (k : ℕ), firstSentinel t = some k →
      t.take k = t.takeWhile (fun v => decide (v ≠ -1))
      ∧ k = (t.takeWhile (fun v => decide (v ≠ -1))).length := by
  intro t
  induction t with
  | nil => intro k h; exact absurd h (by simp [firstSentinel])
  | cons v t ih =>
      intro k h
      by_cases hv : v = -1
      · have hk : k = 0 := by
          simp [firstSentinel, hv] at h
          omega
        subst hk
        have htw : (v :: t).takeWhile (fun v => decide (v ≠ -1)) = [] := by
          rw [List.takeWhile_cons, if_neg (by simp [hv])]
        rw [htw]
        exact ⟨by simp, rfl⟩
      · simp only [firstSentinel, if_neg hv, Option.map_eq_some'] at h
        obtain ⟨k', hk', rfl⟩ := h
        obtain ⟨h1, h2⟩ := ih k' hk'
        have htw : (v :: t).takeWhile (fun v => decide (v ≠ -1))
            = v :: t.takeWhile (fun v => decide (v ≠ -1)) := by
          rw [List.takeWhile_cons, if_pos (by simpa using hv)]
        constructor
        · rw [List.take_succ_cons, htw, h1]
        · rw [htw, List.length_cons, ← h2]

theorem takeWhile_ne_neg1_eq_self :
    ∀ t : List ℤ, (-1 : ℤ) ∉ t →
      t.takeWhile (fun v => decide (v ≠ -1)) = t := by
  intro t
  induction t with
  | nil => intro _; rfl
  | cons v t ih =>
      intro h
      have hv : v ≠ -1 := by
        intro hv
        exact h (by simp [hv])
      have ht : (-1 : ℤ) ∉ t := fun m => h (List.mem_cons_of_mem _ m)
      rw [List.takeWhile_cons, if_pos (by simpa using hv), ih ht]

theorem trimRow_spec (t p : List ℤ) :
    (trimRow t p).1 = t.takeWhile (fun v => decide (v ≠ -1))
    ∧ (trimRow t p).2
      = if (-1 : ℤ) ∈ t then
          p.take ((t.takeWhile (fun v => decide (v ≠ -1))).length)
        else p := by
  unfold trimRow
  cases h : firstSentinel t with
  | none =>
      have hmem : (-1 : ℤ) ∉ t := (firstSentinel_none_iff t).mp h
      exact ⟨(takeWhile_ne_neg1_eq_self t hmem).symm, by simp [hmem]⟩
  | some k =>
      obtain ⟨h1, h2⟩ := firstSentinel_spec t k h
      have hmem : (-1 : ℤ) ∈ t := by
        by_contra hc
        rw [(firstSentinel_none_iff t).mpr hc] at h
        exact absurd h (by simp)
      refine ⟨h1, ?_⟩
      show p.take k = _
      rw [if_pos hmem, ← h2]

/-- C7: the reported truth list of type_loss is, per sequence, exactly the
prefix of the shifted truth up to but excluding the first occurrence of the
padding sentinel -1 (the whole row when no -1 occurs, hence the takeWhile
form), and the reported prediction list is the arg-max prediction row
trimmed at the same position; in the concrete batch of one sequence with
types [1,2,0], the shifted truth is [1,-1] and the -1 entry is excluded
from both reported lists. -/
theorem type_loss_trim_spec :
    (∀ (α : Type) [LinearOrderedField α]
        (prediction : List (List (List α))) (types : List (List ℤ))
        (loss_func : List (List (List α)) → List (List ℤ) → List α),
      (prediction.length = types.length →
        (type_loss prediction types loss_func).2.2.1
          = ((shiftedTruth types).map
              (fun t => t.takeWhile (fun v => decide (v ≠ -1)))).flatten)
      ∧ (type_loss prediction types loss_func).2.2.2
        = (((shiftedTruth types).zip
            (predType (prediction.map List.dropLast))).map
            (fun tp => if (-1 : ℤ) ∈ tp.1 then
                tp.2.take ((tp.1.takeWhile (fun v => decide (v ≠ -1))).length)
              else tp.2)).flatten)
    ∧ shiftedTruth [[1, 2, 0]] = [[1, -1]]
    ∧ (type_loss [[[(0 : ℚ), 1], [1, 0], [0, 0]]] [[1, 2, 0]]
        (fun _ _ => [])).2.2.1 = [1]
    ∧ (type_loss [[[(0 : ℚ), 1], [1, 0], [0, 0]]] [[1, 2, 0]]
        (fun _ _ => [])).2.2.2 = [1] := by
  refine ⟨?_, by decide, by decide, by decide⟩
  intro α inst prediction types lf
  constructor
  · intro hlen
    show ((((shiftedTruth types).zip
        (predType (prediction.map List.dropLast))).map
        (fun tp => trimRow tp.1 tp.2)).map (fun q => q.1)).flatten = _
    rw [List.map_map]
    have hstep : (((shiftedTruth types).zip
        (predType (prediction.map List.dropLast))).map
        ((fun q : List ℤ × List ℤ => q.1) ∘ (fun tp => trimRow tp.1 tp.2)))
        = (((shiftedTruth types).zip
            (predType (prediction.map List.dropLast))).map
            ((fun t : List ℤ => t.takeWhile (fun v => decide (v ≠ -1)))
              ∘ Prod.fst)) := by
      apply List.map_congr_left
      intro tp _
      exact (trimRow_spec tp.1 tp.2).1
    rw [hstep, ← List.map_map]
    have hfst : List.map Prod.fst ((shiftedTruth types).zip
        (predType (prediction.map List.dropLast))) = shiftedTruth types := by
      apply List.map_fst_zip
      simp [shiftedTruth, predType, hlen]
    rw [hfst]
  · show ((((shiftedTruth types).zip
        (predType (prediction.map List.dropLast))).map
        (fun tp => trimRow tp.1 tp.2)).map (fun q => q.2)).flatten = _
    rw [List.map_map]
    refine congrArg List.flatten (List.map_congr_left ?_)
    intro tp _
    exact (trimRow_spec tp.1 tp.2).2

theorem type_loss_trim_witness :
    (type_loss [[[(2 : ℚ), 3], [4, 0]]] [[2, 1]] (fun _ _ => [])).2.2.1
      = [0] :=
  ((type_loss_trim_spec.1 ℚ [[[2, 3], [4, 0]]] [[2, 1]]
    (fun _ _ => [])).1 (by decide)).trans (by decide)

/-! ### Claim C2: which operations mutate their arguments -/

/-- C2 amended: the operations of the module are purely functional except
for LabelSmoothingLoss.forward, compute_event and time_loss.  compute_event
mutates its event argument in place: it ends with value event + 1e-9 at
positions whose mask entry is non-zero and 1.0 at padded positions.
time_loss mutates its prediction argument in place: the trailing singleton
dimension is squeezed away, each remaining entry keeping its value (the
single entry of the squeezed cell); length and values are otherwise
preserved.  (The remaining operations — softplus, compute_integral_biased,
compute_integral_unbiased, log_likelihood, type_loss — contain no in-place
operation on an argument: their embeddings are plain functions of their
inputs that return no updated argument state.) -/
theorem mutation_frame_spec :
    (∀ (event non_pad_mask : List (List ℝ)) (i j : ℕ),
      i < event.length → i < non_pad_mask.length →
      j < (event.getD i []).length → j < (non_pad_mask.getD i []).length →
      (((compute_event event non_pad_mask).2).getD i []).getD j 0
        = if (non_pad_mask.getD i []).getD j 0 = 0 then 1
          else (event.getD i []).getD j 0 + eps9)
    ∧ (∀ (α : Type) [LinearOrderedField α]
        (prediction : List (List (List α))) (event_time : List (List α)),
      ((time_loss prediction event_time).2).length = prediction.length
      ∧ ∀ j k, j < prediction.length → k < (prediction.getD j []).length →
          (((time_loss prediction event_time).2).getD j []).length
            = (prediction.getD j []).length
          ∧ (((time_loss prediction event_time).2).getD j []).getD k 0
            = ((prediction.getD j []).getD k []).headD 0) := by
  constructor
  · intro event non_pad_mask i j hi him hj hjm
    simp only [compute_event]
    have h1 : i < (event.map (List.map (fun v => v + eps9))).length := by
      simpa using hi
    rw [getD_zipWith _ _ _ i [] [] [] h1 him,
      getD_map (List.map (fun v => v + eps9)) event i [] [] hi,
      getD_zipWith _ _ _ j 0 0 0 (by simpa using hj) hjm,
      getD_map (fun v => v + eps9) _ j 0 0 hj]
  · intro α inst prediction event_time
    refine ⟨by simp [time_loss], ?_⟩
    intro j k hj hk
    constructor
    · show ((prediction.map
          (List.map (fun c => c.headD 0))).getD j []).length = _
      rw [getD_map _ prediction j [] [] hj]
      simp
    · show ((prediction.map
          (List.map (fun c => c.headD 0))).getD j []).getD k 0 = _
      rw [getD_map _ prediction j [] [] hj,
        getD_map _ _ k [] 0 hk]

theorem mutation_frame_witness :
    (((compute_event [[2]] [[1]]).2).getD 0 []).getD 0 0 = 2 + eps9
    ∧ (((time_loss [[[(5 : ℚ)], [7]]] [[0, 1]]).2).getD 0 []).getD 1 0
        = 7 := by
  constructor
  · have h := mutation_frame_spec.1 [[2]] [[1]] 0 0 (by simp) (by simp)
      (by simp) (by simp)
    simpa using h
  · have h := ((mutation_frame_spec.2 ℚ [[[5], [7]]] [[0, 1]]).2 0 1
      (by simp) (by simp)).2
    simpa using h

/-- C2 counterexample: compute_event does not leave its event argument
unchanged: on event [[1]] with mask [[1]] the caller's tensor ends as
[[1 + 1e-9]], which differs from [[1]].  (And time_loss leaves its
prediction argument squeezed: the rank-3 input [[[5],[7]]] ends as the
rank-2 tensor [[5, 7]].) -/
theorem compute_event_mutates :
    (compute_event [[1]] [[1]]).2 ≠ [[1]]
    ∧ (time_loss [[[(5 : ℚ)], [7]]] [[0, 1]]).2 = [[5, 7]] := by
  constructor
  · intro h
    have h1 := congrArg (fun l : List (List ℝ) => (l.getD 0 []).getD 0 0) h
    simp [compute_event, eps9] at h1
  · decide

end CNPP
